import Mathlib

/-!
Shallow embedding of the unified-diff parser of `src/server/src/git.ts`
(class `GitService`, methods `parseDiff`, `parseFileBlock`, and the
untracked-file diff synthesis of `generateUntrackedFilesDiff`).

Strings are modelled as `List Char` internally (lines never contain a
newline once the input has been split), and the record fields that are
strings in the TypeScript data model (`types.ts`) are Lean `String`s
built from those character lists.  JavaScript numbers are modelled as
`Nat`: every number in the parser is produced by `parseInt` on a digit
string or by incrementing such a value, so all values are non-negative
integers.
-/

/-- Line classification, from `DiffLine.type` in `src/server/src/types.ts`:
`'context' | 'addition' | 'deletion'`. -/
inductive DiffLineType where
  | context
  | addition
  | deletion
deriving DecidableEq, Repr

/-- `DiffLine` from `src/server/src/types.ts`.  `null` line numbers are
modelled as `none`. -/
structure DiffLine where
  type : DiffLineType
  content : String
  oldLineNumber : Option Nat
  newLineNumber : Option Nat
deriving DecidableEq, Repr

/-- `DiffChunk` from `src/server/src/types.ts`. -/
structure DiffChunk where
  oldStart : Nat
  oldLines : Nat
  newStart : Nat
  newLines : Nat
  header : String
  lines : List DiffLine
deriving DecidableEq, Repr

/-- `DiffFile` from `src/server/src/types.ts`.  The optional `oldPath?`
field is an `Option`. -/
structure DiffFile where
  path : String
  oldPath : Option String
  additions : Nat
  deletions : Nat
  chunks : List DiffChunk
deriving DecidableEq, Repr

/-- JavaScript `text.split(sep)` for a single-character separator:
always returns at least one (possibly empty) piece, and a trailing
separator yields a trailing empty piece. -/
def splitOnChar (sep : Char) : List Char → List (List Char)
  | [] => [[]]
  | c :: cs =>
    if c = sep then [] :: splitOnChar sep cs
    else
      match splitOnChar sep cs with
      | h :: t => (c :: h) :: t
      | [] => [[c]]

/-- The digit test of the regex character class `\d` (exactly `0`-`9`). -/
def isDig (c : Char) : Bool := 48 ≤ c.toNat && c.toNat ≤ 57

/-- `parseInt` on a non-empty string of decimal digits. -/
def natOfDigits (ds : List Char) : Nat :=
  ds.foldl (fun n c => 10 * n + (c.toNat - 48)) 0

/-- The characters JavaScript's `.` never matches: the ECMAScript line
terminators LF, CR, LINE SEPARATOR and PARAGRAPH SEPARATOR.  The input
is split on `'\n'` only, so a line can still contain the other three. -/
def isLineTerm (c : Char) : Bool :=
  c = '\n' || c = '\r' || c = '\u2028' || c = '\u2029'

/-- The numeric part of the hunk-header regex
`^@@ -(\d+),?(\d*) \+(\d+),?(\d*) @@(.*)$` of `parseFileBlock`
(src/server/src/git.ts line 263), applied after the literal `@@ -`.
Greedy `\d+`/`\d*` take the maximal digit run, and backtracking can
never rescue a failed literal match here (an unconsumed digit can only
be followed by more digits), so the deterministic scan below is exactly
the regex.  The `(.*)$` tail: `.` matches no line terminator and `$`
(no `m` flag) only the very end of the input, so the whole match fails
when the trailing text contains one. -/
def parseHeaderNums (r : List Char) : Option (Nat × Nat × Nat × Nat) :=
  let d1 := r.takeWhile isDig
  let r1 := r.dropWhile isDig
  if d1 = [] then none else
  let r2 := match r1 with | ',' :: t => t | _ => r1
  let d2 := r2.takeWhile isDig
  let r3 := r2.dropWhile isDig
  match r3 with
  | ' ' :: '+' :: r4 =>
    let d3 := r4.takeWhile isDig
    let r5 := r4.dropWhile isDig
    if d3 = [] then none else
    let r6 := match r5 with | ',' :: t => t | _ => r5
    let d4 := r6.takeWhile isDig
    let r7 := r6.dropWhile isDig
    match r7 with
    | ' ' :: '@' :: '@' :: tail =>
      if tail.all (fun c => !isLineTerm c) then
        some (natOfDigits d1, (if d2 = [] then 1 else natOfDigits d2),
              natOfDigits d3, (if d4 = [] then 1 else natOfDigits d4))
      else none
    | _ => none
  | _ => none

/-- The full hunk-header regex match of `parseFileBlock`: the line must
begin with the literal `@@ -`; the captured groups give
`(oldStart, oldCount, newStart, newCount)` with an omitted count
defaulting to `1` (the empty capture is falsy in `chunkMatch[2] ? ... : 1`). -/
def parseChunkHeader (line : List Char) : Option (Nat × Nat × Nat × Nat) :=
  if line.take 4 = ['@', '@', ' ', '-'] then parseHeaderNums (line.drop 4)
  else none

/-- The mutable state of the scanning loop of `parseFileBlock`
(src/server/src/git.ts lines 247-310).  `chunks` holds chunks that can
no longer change.  In the source, `chunks.push(currentChunk)` pushes a
reference to the still-mutable current chunk; all pushes of one chunk
object are consecutive (only the current object is ever pushed), so the
final `chunks` array is, object by object, `curPushes`-many aliases of
the object's final state.  `curPushes` counts how many times the current
chunk object has already been pushed (by `@@`-prefixed lines whose
header failed the regex); it is materialised when the object is
replaced or the loop ends. -/
structure ScanState where
  chunks : List DiffChunk
  current : Option DiffChunk
  curPushes : Nat
  oldLineNum : Nat
  newLineNum : Nat
  additions : Nat
  deletions : Nat
deriving DecidableEq, Repr

/-- The copies of the current chunk object that sit in the source's
`chunks` array after one more push (the push at a `@@` line or the
final push after the loop). -/
def flushCurrent (st : ScanState) : List DiffChunk :=
  match st.current with
  | some c => List.replicate (st.curPushes + 1) c
  | none => []

/-- One iteration of the scanning loop of `parseFileBlock`
(src/server/src/git.ts lines 254-310) on the line `line`. -/
def processLine (st : ScanState) (line : List Char) : ScanState :=
  if line.take 2 = ['@', '@'] then
    match parseChunkHeader line with
    | some (os, oc, ns, nc) =>
      { chunks := st.chunks ++ flushCurrent st
        current := some { oldStart := os, oldLines := oc, newStart := ns,
                          newLines := nc, header := ⟨line⟩, lines := [] }
        curPushes := 0
        oldLineNum := os
        newLineNum := ns
        additions := st.additions
        deletions := st.deletions }
    | none =>
      -- `chunks.push(currentChunk)` already happened, but the match
      -- failed, so the same (still mutable) object stays current.
      match st.current with
      | some _ => { st with curPushes := st.curPushes + 1 }
      | none => st
  else
    match st.current with
    | none => st
    | some c =>
      match line with
      | '+' :: rest =>
        { st with
          current := some { c with lines := c.lines ++
            [{ type := .addition, content := ⟨rest⟩,
               oldLineNumber := none, newLineNumber := some st.newLineNum }] }
          newLineNum := st.newLineNum + 1
          additions := st.additions + 1 }
      | '-' :: rest =>
        { st with
          current := some { c with lines := c.lines ++
            [{ type := .deletion, content := ⟨rest⟩,
               oldLineNumber := some st.oldLineNum, newLineNumber := none }] }
          oldLineNum := st.oldLineNum + 1
          deletions := st.deletions + 1 }
      | ' ' :: rest =>
        { st with
          current := some { c with lines := c.lines ++
            [{ type := .context, content := ⟨rest⟩,
               oldLineNumber := some st.oldLineNum,
               newLineNumber := some st.newLineNum }] }
          oldLineNum := st.oldLineNum + 1
          newLineNum := st.newLineNum + 1 }
      | _ => st

/-- The initial values of the loop-local variables of `parseFileBlock`. -/
def initScan : ScanState :=
  { chunks := [], current := none, curPushes := 0,
    oldLineNum := 0, newLineNum := 0, additions := 0, deletions := 0 }

/-- `lines.findIndex(pred)`, as an `Option` instead of `-1`. -/
def findIdxOpt (p : α → Bool) : List α → Option Nat
  | [] => none
  | a :: l => if p a then some 0 else (findIdxOpt p l).map (· + 1)

/-- Whether `i` is a position of the literal `" b/"` inside `rest` that
the two `(.+)` groups of the path regex `^a\/(.+) b\/(.+)$` can
accommodate: both groups non-empty and, since JavaScript `.` matches no
line terminator, free of LF, CR, U+2028 and U+2029. -/
def validSplitAt (rest : List Char) (i : Nat) : Bool :=
  decide ((rest.drop i).take 3 = [' ', 'b', '/']) && decide (1 ≤ i)
    && decide (i + 3 < rest.length)
    && (rest.take i).all (fun c => !isLineTerm c)
    && (rest.drop (i + 3)).all (fun c => !isLineTerm c)

/-- The split position chosen by the greedy regex `^a\/(.+) b\/(.+)$`:
the first group is maximal, so the literal `" b/"` is matched at the
last admissible position. -/
def lastValidSplit (rest : List Char) : Option Nat :=
  ((List.range rest.length).filter (validSplitAt rest)).getLast?

/-- The path match of `parseFileBlock` (src/server/src/git.ts line 237):
`lines[0].match(/^a\/(.+) b\/(.+)$/)`, returning the two captured
groups `(oldPath, newPath)`. -/
def matchPaths (line : List Char) : Option (List Char × List Char) :=
  match line with
  | 'a' :: '/' :: rest =>
    match lastValidSplit rest with
    | some i => some (rest.take i, rest.drop (i + 3))
    | none => none
  | _ => none

/-- `line.startsWith('@@')`, the predicate of the `findIndex` on line 244
of src/server/src/git.ts. -/
def hunkStart (l : List Char) : Bool := l.take 2 = ['@', '@']

/-- `parseFileBlock` (src/server/src/git.ts lines 233-323) on a block
given as its list of lines (the source first does `block.split('\n')`). -/
def parseFileBlock (bl : List (List Char)) : Option DiffFile :=
  match bl.head? with
  | none => none
  | some first =>
    match matchPaths first with
    | none => none
    | some (oldPath, newPath) =>
      match findIdxOpt hunkStart bl with
      | none => none
      | some diffStartIndex =>
        let st := (bl.drop diffStartIndex).foldl processLine initScan
        let chunks := st.chunks ++ flushCurrent st
        some { path := ⟨newPath⟩
               oldPath := if oldPath ≠ newPath then some ⟨oldPath⟩ else none
               additions := st.additions
               deletions := st.deletions
               chunks := chunks }

/-- The file-block boundary `diffText.split(/^diff --git /m)`: a line
starting with the 11 characters `diff --git ` opens a new block whose
first line is the remainder of that line.  The source splits the raw
text and only then splits each block on newlines; splitting on newlines
first and grouping at the marker lines yields the same blocks, with the
newline preceding each marker becoming an explicit empty last line of
the preceding block (`"...\n".split('\n')` ends with `""`). -/
def isMarker (l : List Char) : Bool := l.take 11 = "diff --git ".data

def splitBlocksAux : List (List Char) → List (List Char) → List (List (List Char))
  | [], acc => [acc.reverse]
  | l :: rest, acc =>
    if isMarker l then
      (acc.reverse ++ [[]]) :: splitBlocksAux rest [l.drop 11]
    else
      splitBlocksAux rest (l :: acc)

/-- `.filter(Boolean)` drops exactly the empty-string blocks, and a
block's joined text is empty iff its line list is `[[]]`. -/
def splitBlocks (ls : List (List Char)) : List (List (List Char)) :=
  (splitBlocksAux ls []).filter (fun b => b ≠ [[]])

/-- `parseDiff` (src/server/src/git.ts lines 216-228) on an input
already split into lines:
blocks are parsed independently and the `null` results are dropped. -/
def parseDiffLines (ls : List (List Char)) : List DiffFile :=
  (splitBlocks ls).filterMap parseFileBlock

/-- `parseDiff` (src/server/src/git.ts lines 216-228). -/
def parseDiff (s : String) : List DiffFile :=
  parseDiffLines (splitOnChar '\n' s.data)

/-- Decimal digit character, for rendering `${lines.length}`.  Only ever
applied to `d < 10`. -/
def digitChar (d : Nat) : Char :=
  match d with
  | 0 => '0' | 1 => '1' | 2 => '2' | 3 => '3' | 4 => '4'
  | 5 => '5' | 6 => '6' | 7 => '7' | 8 => '8' | _ => '9'

/-- Decimal rendering of a natural number (JavaScript `${n}` for the
non-negative integers that occur here). -/
def digitsOf (n : Nat) : List Char :=
  if n < 10 then [digitChar n]
  else digitsOf (n / 10) ++ [digitChar (n % 10)]
termination_by n
decreasing_by exact Nat.div_lt_self (by omega) (by omega)

/-- The synthesized diff segment for one untracked file, from the loop
body of `generateUntrackedFilesDiff` (src/server/src/git.ts lines
172-189): a `diff --git` header, new-file metadata, a single
`@@ -0,0 +1,N @@` hunk header where `N` is the number of pieces of the
content split on newline, and one `+`-prefixed body line per piece,
each line terminated by `\n`. -/
def untrackedFileDiff (filePath content : List Char) : List Char :=
  let lines := splitOnChar '\n' content
  ((["diff --git a/".data ++ filePath ++ " b/".data ++ filePath,
     "new file mode 100644".data,
     "index 0000000..0000000".data,
     "--- /dev/null".data,
     "+++ b/".data ++ filePath,
     "@@ -0,0 +1,".data ++ digitsOf lines.length ++ " @@".data]
    ++ lines.map (fun l => '+' :: l)).map (fun l => l ++ ['\n'])).flatten

/-- Number of lines of a given tag in one hunk. -/
def chunkCountType (t : DiffLineType) (c : DiffChunk) : Nat :=
  (c.lines.filter (fun l => l.type = t)).length

/-- Number of lines of a given tag across all hunks of a file. -/
def countType (t : DiffLineType) (f : DiffFile) : Nat :=
  (f.chunks.map (chunkCountType t)).sum

/-- Number of lines of a given tag in the optional current chunk. -/
def curCountType (t : DiffLineType) (o : Option DiffChunk) : Nat :=
  match o with
  | some c => chunkCountType t c
  | none => 0

/-- The addition line record the scan creates for a `+`-prefixed body
line with content `p.2` at new-side line number `p.1`. -/
def addLineOf (p : Nat × List Char) : DiffLine :=
  { type := .addition, content := ⟨p.2⟩,
    oldLineNumber := none, newLineNumber := some p.1 }

/-- The shapes of the `DiffLine` records the scanning loop can create. -/
def CreatedLine (l : DiffLine) : Prop :=
  (∃ s k, l = { type := .addition, content := s,
                oldLineNumber := none, newLineNumber := some k }) ∨
  (∃ s k, l = { type := .deletion, content := s,
                oldLineNumber := some k, newLineNumber := none }) ∨
  (∃ s k k', l = { type := .context, content := s,
                   oldLineNumber := some k, newLineNumber := some k' })

/-- A chunk property holding of every finalized chunk and of the open
chunk of a scan state. -/
def StateChunksOK (Pc : DiffChunk → Prop) (st : ScanState) : Prop :=
  (∀ c ∈ st.chunks, Pc c) ∧ (∀ c, st.current = some c → Pc c)

/-- The per-line number-presence discipline claimed by the spec:
context lines carry both numbers, additions only the new one,
deletions only the old one. -/
def lineNumbersOK (l : DiffLine) : Prop :=
  match l.type with
  | .context => l.oldLineNumber.isSome ∧ l.newLineNumber.isSome
  | .addition => l.oldLineNumber = none ∧ l.newLineNumber.isSome
  | .deletion => l.oldLineNumber.isSome ∧ l.newLineNumber = none

/-- A chunk's four numeric fields are exactly what the hunk-header regex
yields on its verbatim `header` text. -/
def headerDeclared (c : DiffChunk) : Prop :=
  parseChunkHeader c.header.data =
    some (c.oldStart, c.oldLines, c.newStart, c.newLines)

/-- Every line of the block that begins with `@@` matches the
hunk-header pattern. -/
def WellFormedHeaders (bl : List (List Char)) : Prop :=
  ∀ l ∈ bl, l.take 2 = ['@', '@'] → (parseChunkHeader l).isSome

instance (bl : List (List Char)) : Decidable (WellFormedHeaders bl) :=
  inferInstanceAs (Decidable (∀ l ∈ bl,
    l.take 2 = ['@', '@'] → (parseChunkHeader l).isSome = true))

/-- The bookkeeping invariant of the scan when no `@@`-prefixed line has
failed the header pattern: the current chunk object has never been
pushed early, and the `additions`/`deletions` counters agree with the
per-line tags accumulated in the finalized and current chunks. -/
def CountsInv (st : ScanState) : Prop :=
  st.curPushes = 0 ∧
  st.additions = (st.chunks.map (chunkCountType .addition)).sum
      + curCountType .addition st.current ∧
  st.deletions = (st.chunks.map (chunkCountType .deletion)).sum
      + curCountType .deletion st.current

/-- A well-shaped single-file diff segment, given as its list of lines:
it opens with a `diff --git ` marker line whose remainder matches the
`a/<old> b/<new>` path shape, no other line is a marker (so concatenated
segments split back into exactly these segments), and some line is a
well-formed hunk header. -/
def ValidSegment (S : List (List Char)) : Prop :=
  match S with
  | [] => False
  | first :: rest =>
    isMarker first = true ∧ (∀ l ∈ rest, isMarker l = false) ∧
    (matchPaths (first.drop 11)).isSome ∧
    ∃ l ∈ rest, (parseChunkHeader l).isSome

instance : (S : List (List Char)) → Decidable (ValidSegment S)
  | [] => isFalse (fun h => h)
  | first :: rest =>
    inferInstanceAs (Decidable (isMarker first = true ∧
      (∀ l ∈ rest, isMarker l = false) ∧
      (matchPaths (first.drop 11)).isSome = true ∧
      ∃ l ∈ rest, (parseChunkHeader l).isSome = true))

/-- The file block a segment turns into: the marker prefix of the first
line is consumed by the split. -/
def stripSeg (S : List (List Char)) : List (List Char) :=
  match S with
  | [] => []
  | first :: rest => first.drop 11 :: rest

/-- The blocks that the block split produces from concatenated segments:
every block except the last gets the empty line arising from the newline
that precedes the next marker. -/
def segBlocks : List (List (List Char)) → List (List (List Char))
  | [] => []
  | [S] => [stripSeg S]
  | S :: rest => (stripSeg S ++ [[]]) :: segBlocks rest

/-! ## Basic structural lemmas about the scanning step -/

/-- A successfully matched hunk header starts with `@@`. -/
theorem parseChunkHeader_take2 {line : List Char} {x : Nat × Nat × Nat × Nat}
    (h : parseChunkHeader line = some x) : line.take 2 = ['@', '@'] := by
  unfold parseChunkHeader at h
  split at h
  · rename_i h4
    have h2 : line.take 2 = (line.take 4).take 2 := by
      rw [List.take_take]
      norm_num
    rw [h2, h4]
    rfl
  · exact absurd h (by simp)

/-- Claim C1: parsing the exact nine-line input of the spec's concrete
scenario returns exactly one `FileChange` with path `foo.txt`, no old
path, 2 additions, 1 deletion, and one hunk whose lines are
context("keep", 1, 1), deletion("old", 2, –), addition("new1", –, 2),
addition("new2", –, 3). -/
theorem c1_concrete_scenario :
    parseDiff "diff --git a/foo.txt b/foo.txt\nindex e69de29..0000000 100644\n--- a/foo.txt\n+++ b/foo.txt\n@@ -1,2 +1,3 @@\n keep\n-old\n+new1\n+new2" =
      [{ path := "foo.txt", oldPath := none, additions := 2, deletions := 1,
         chunks := [{ oldStart := 1, oldLines := 2, newStart := 1, newLines := 3,
                      header := "@@ -1,2 +1,3 @@",
                      lines := [{ type := .context, content := "keep",
                                  oldLineNumber := some 1, newLineNumber := some 1 },
                                { type := .deletion, content := "old",
                                  oldLineNumber := some 2, newLineNumber := none },
                                { type := .addition, content := "new1",
                                  oldLineNumber := none, newLineNumber := some 2 },
                                { type := .addition, content := "new2",
                                  oldLineNumber := none, newLineNumber := some 3 }] }] }] := by
  decide

/-- Claim C3, counterexample: a segment whose only `@@`-prefixed line
fails the hunk-header regex is NOT dropped — it is emitted as a
`FileChange` with zero hunks, contradicting both "a segment that ends up
with zero hunks after scanning contributes no FileChange" and "every
FileChange in the output contains at least one hunk". -/
theorem c3_counterexample :
    parseDiff "diff --git a/h b/h\n@@ junk" =
      [{ path := "h", oldPath := none, additions := 0, deletions := 0,
         chunks := [] }] := by
  decide

/-- Claim C2, counterexample: after a malformed `@@` line, the open hunk
has already been pushed into the chunk array but stays current, so it
ends up in the array twice and its addition lines are counted twice by
"count across all hunks" while the `additions` field counted them once:
on this input, the single file has `additions = 1` but 2 addition-tagged
lines across its hunks. -/
theorem c2_counterexample :
    (parseDiff "diff --git a/g b/g\n@@ -1 +1 @@\n+y\n@@oops").map
        (fun f => (f.additions, countType .addition f)) = [(1, 2)] := by
  decide

/-- Claim C4, counterexample: the line `@@bad` begins with `@@` but does
not match the hunk-header pattern; the previously open hunk is appended
to the hunk list at that point and appended AGAIN at the end of the
segment (in the source both array slots alias the same object), so it is
not "finalized and appended exactly once", no new hunk is started, and
no counters are reset. -/
theorem c4_counterexample :
    ("@@bad".data.take 2 = ['@', '@'] ∧ parseChunkHeader "@@bad".data = none) ∧
    parseDiff "diff --git a/f b/f\n@@ -1 +1 @@\n+x\n@@bad" =
      [{ path := "f", oldPath := none, additions := 1, deletions := 0,
         chunks := [{ oldStart := 1, oldLines := 1, newStart := 1, newLines := 1,
                      header := "@@ -1 +1 @@",
                      lines := [{ type := .addition, content := "x",
                                  oldLineNumber := none, newLineNumber := some 1 }] },
                    { oldStart := 1, oldLines := 1, newStart := 1, newLines := 1,
                      header := "@@ -1 +1 @@",
                      lines := [{ type := .addition, content := "x",
                                  oldLineNumber := none, newLineNumber := some 1 }] }] }] := by
  decide

/-- Claim C8, counterexample: a hunk-header line's first character `@`
is none of `+`, `-`, space, and a hunk is open, yet the parser does not
"skip exactly that line" — the state changes (the open hunk is finalized
and a new hunk with reset counters is opened). -/
theorem c8_counterexample :
    (let st : ScanState :=
      { chunks := [], curPushes := 0, oldLineNum := 7, newLineNum := 9,
        additions := 0, deletions := 0,
        current := some { oldStart := 7, oldLines := 1, newStart := 9,
                          newLines := 1, header := "@@ -7 +9 @@", lines := [] } }
     st.current.isSome ∧
       "@@ -5 +5 @@".data.take 1 ≠ ['+'] ∧
       "@@ -5 +5 @@".data.take 1 ≠ ['-'] ∧
       "@@ -5 +5 @@".data.take 1 ≠ [' '] ∧
       processLine st "@@ -5 +5 @@".data ≠ st) := by
  decide

/-- Claim C8 (amended): for every line encountered inside an open hunk
whose first character is not `+`, `-`, or a space (including the empty
line) and which does not begin with `@@`, the parser skips exactly that
line: the whole scanning state — chunk list, open hunk, both running
line counters, `additions` and `deletions` — is unchanged. -/
theorem c8_skip_line (st : ScanState) (line : List Char)
    (hcur : st.current.isSome)
    (hat : line.take 2 ≠ ['@', '@'])
    (hplus : line.take 1 ≠ ['+'])
    (hminus : line.take 1 ≠ ['-'])
    (hspace : line.take 1 ≠ [' ']) :
    processLine st line = st := by
  obtain ⟨c, hc⟩ := Option.isSome_iff_exists.mp hcur
  simp only [processLine, if_neg hat, hc]
  split <;> simp_all [List.take_succ_cons]

/-- Witness for `c8_skip_line` at a concrete state and the line
`\ No newline at end of file`. -/
theorem c8_skip_line_witness :
    processLine
      { chunks := [], curPushes := 0, oldLineNum := 3, newLineNum := 4,
        additions := 1, deletions := 0,
        current := some { oldStart := 3, oldLines := 1, newStart := 4,
                          newLines := 1, header := "@@ -3 +4 @@", lines := [] } }
      "\\ No newline at end of file".data =
    { chunks := [], curPushes := 0, oldLineNum := 3, newLineNum := 4,
      additions := 1, deletions := 0,
      current := some { oldStart := 3, oldLines := 1, newStart := 4,
                        newLines := 1, header := "@@ -3 +4 @@", lines := [] } } :=
  c8_skip_line _ _ (by decide) (by decide) (by decide) (by decide) (by decide)

/-- Claim C4 (amended): within a segment, every line beginning with `@@`
that matches the hunk-header pattern starts a new hunk — the previously
open hunk (if any) is appended to the hunk list at that point (exactly
once when no preceding malformed `@@` line pushed it already, which
`flushCurrent` with `curPushes = 0` makes a single copy), the header is
parsed as oldStart, oldLineCount, newStart, newLineCount with an omitted
count defaulting to 1 (in particular `@@ -10,5 +12 @@` yields
10, 5, 12, 1), the header line is stored verbatim, and the running
counters are reset to `oldLineNum = oldStart`, `newLineNum = newStart`.
A line beginning with `@@` that fails the pattern instead appends the
open hunk without closing it (see the counterexample). -/
theorem c4_header_starts_new_hunk :
    (∀ (st : ScanState) (line : List Char) (os oc ns nc : Nat),
      parseChunkHeader line = some (os, oc, ns, nc) →
      processLine st line =
        { chunks := st.chunks ++ flushCurrent st
          current := some { oldStart := os, oldLines := oc, newStart := ns,
                            newLines := nc, header := ⟨line⟩, lines := [] }
          curPushes := 0
          oldLineNum := os
          newLineNum := ns
          additions := st.additions
          deletions := st.deletions }) ∧
    parseChunkHeader "@@ -10,5 +12 @@".data = some (10, 5, 12, 1) := by
  constructor
  · intro st line os oc ns nc h
    have h2 := parseChunkHeader_take2 h
    simp only [processLine, if_pos h2, h]
  · decide

/-- Witness for `c4_header_starts_new_hunk` at the initial state and the
header `@@ -10,5 +12 @@`. -/
theorem c4_header_starts_new_hunk_witness :
    processLine initScan "@@ -10,5 +12 @@".data =
      { chunks := [], curPushes := 0, oldLineNum := 10, newLineNum := 12,
        additions := 0, deletions := 0,
        current := some { oldStart := 10, oldLines := 5, newStart := 12,
                          newLines := 1, header := "@@ -10,5 +12 @@",
                          lines := [] } } :=
  c4_header_starts_new_hunk.1 initScan "@@ -10,5 +12 @@".data 10 5 12 1
    c4_header_starts_new_hunk.2

/-! ## Chunk-property preservation along the scan -/

theorem processLine_chunksOK {Pc : DiffChunk → Prop}
    (hnew : ∀ (os oc ns nc : Nat) (line : List Char),
      parseChunkHeader line = some (os, oc, ns, nc) →
      Pc { oldStart := os, oldLines := oc, newStart := ns, newLines := nc,
           header := ⟨line⟩, lines := [] })
    (hext : ∀ (c : DiffChunk) (dl : DiffLine), Pc c → CreatedLine dl →
      Pc { c with lines := c.lines ++ [dl] })
    (st : ScanState) (line : List Char) (hst : StateChunksOK Pc st) :
    StateChunksOK Pc (processLine st line) := by
  obtain ⟨h1, h2⟩ := hst
  unfold processLine
  split
  · -- line begins with @@
    split
    · -- header parses: previous chunk flushed, fresh chunk opened
      rename_i x os oc ns nc heq
      refine ⟨?_, ?_⟩
      · intro c hc
        rw [List.mem_append] at hc
        rcases hc with hc | hc
        · exact h1 c hc
        · unfold flushCurrent at hc
          cases hcur : st.current with
          | none => rw [hcur] at hc; simp at hc
          | some c' =>
            rw [hcur] at hc
            rw [List.eq_of_mem_replicate hc]
            exact h2 c' hcur
      · intro c hc
        injection hc with hc
        rw [← hc]
        exact hnew os oc ns nc line heq
    · -- header fails: only the push counter changes
      split
      · exact ⟨h1, h2⟩
      · exact ⟨h1, h2⟩
  · -- body line
    split
    · exact ⟨h1, h2⟩
    · rename_i c hceq
      split
      · refine ⟨h1, ?_⟩
        intro c' hc'
        injection hc' with hc'
        rw [← hc']
        exact hext c _ (h2 c hceq) (Or.inl ⟨_, _, rfl⟩)
      · refine ⟨h1, ?_⟩
        intro c' hc'
        injection hc' with hc'
        rw [← hc']
        exact hext c _ (h2 c hceq) (Or.inr (Or.inl ⟨_, _, rfl⟩))
      · refine ⟨h1, ?_⟩
        intro c' hc'
        injection hc' with hc'
        rw [← hc']
        exact hext c _ (h2 c hceq) (Or.inr (Or.inr ⟨_, _, _, rfl⟩))
      · exact ⟨h1, h2⟩

theorem foldl_chunksOK {Pc : DiffChunk → Prop}
    (hnew : ∀ (os oc ns nc : Nat) (line : List Char),
      parseChunkHeader line = some (os, oc, ns, nc) →
      Pc { oldStart := os, oldLines := oc, newStart := ns, newLines := nc,
           header := ⟨line⟩, lines := [] })
    (hext : ∀ (c : DiffChunk) (dl : DiffLine), Pc c → CreatedLine dl →
      Pc { c with lines := c.lines ++ [dl] }) :
    ∀ (ls : List (List Char)) (st : ScanState), StateChunksOK Pc st →
      StateChunksOK Pc (ls.foldl processLine st) := by
  intro ls
  induction ls with
  | nil => intro st hst; exact hst
  | cons l ls ih =>
    intro st hst
    exact ih _ (processLine_chunksOK hnew hext st l hst)

theorem parseFileBlock_chunksOK {Pc : DiffChunk → Prop}
    (hnew : ∀ (os oc ns nc : Nat) (line : List Char),
      parseChunkHeader line = some (os, oc, ns, nc) →
      Pc { oldStart := os, oldLines := oc, newStart := ns, newLines := nc,
           header := ⟨line⟩, lines := [] })
    (hext : ∀ (c : DiffChunk) (dl : DiffLine), Pc c → CreatedLine dl →
      Pc { c with lines := c.lines ++ [dl] })
    {bl : List (List Char)} {f : DiffFile} (h : parseFileBlock bl = some f) :
    ∀ c ∈ f.chunks, Pc c := by
  unfold parseFileBlock at h
  split at h
  · exact absurd h (by simp)
  · split at h
    · exact absurd h (by simp)
    · split at h
      · exact absurd h (by simp)
      · rename_i first hfirst op np hpaths i hidx
        injection h with h
        have hscan : StateChunksOK Pc ((bl.drop i).foldl processLine initScan) :=
          foldl_chunksOK hnew hext _ _ ⟨by intro c hc; simp [initScan] at hc,
            by intro c hc; simp [initScan] at hc⟩
        intro c hc
        rw [← h] at hc
        simp only at hc
        rw [List.mem_append] at hc
        rcases hc with hc | hc
        · exact hscan.1 c hc
        · unfold flushCurrent at hc
          cases hcur : ((bl.drop i).foldl processLine initScan).current with
          | none => rw [hcur] at hc; simp at hc
          | some c' =>
            rw [hcur] at hc
            rw [List.eq_of_mem_replicate hc]
            exact hscan.2 c' hcur

theorem parseDiff_chunksOK {Pc : DiffChunk → Prop}
    (hnew : ∀ (os oc ns nc : Nat) (line : List Char),
      parseChunkHeader line = some (os, oc, ns, nc) →
      Pc { oldStart := os, oldLines := oc, newStart := ns, newLines := nc,
           header := ⟨line⟩, lines := [] })
    (hext : ∀ (c : DiffChunk) (dl : DiffLine), Pc c → CreatedLine dl →
      Pc { c with lines := c.lines ++ [dl] })
    {s : String} {f : DiffFile} (hf : f ∈ parseDiff s) :
    ∀ c ∈ f.chunks, Pc c := by
  unfold parseDiff parseDiffLines at hf
  rw [List.mem_filterMap] at hf
  obtain ⟨bl, _, hbl⟩ := hf
  exact parseFileBlock_chunksOK hnew hext hbl

/-- Claim C5: in every line of every hunk of every `FileChange` produced
by the parser, a context line has both line numbers present, an addition
line has only the new number, a deletion line has only the old number,
and no line has both numbers absent. -/
theorem c5_line_number_presence (s : String) (f : DiffFile) (hf : f ∈ parseDiff s)
    (c : DiffChunk) (hc : c ∈ f.chunks) (l : DiffLine) (hl : l ∈ c.lines) :
    lineNumbersOK l ∧ ¬(l.oldLineNumber = none ∧ l.newLineNumber = none) := by
  have key := @parseDiff_chunksOK
    (fun c' => ∀ l' ∈ c'.lines,
      lineNumbersOK l' ∧ ¬(l'.oldLineNumber = none ∧ l'.newLineNumber = none))
    ?hnew ?hext s f hf
  case hnew =>
    intro os oc ns nc line _ l' hl'
    simp at hl'
  case hext =>
    intro c' dl hPc hdl l' hl'
    simp only [List.mem_append, List.mem_singleton] at hl'
    rcases hl' with hl' | rfl
    · exact hPc l' hl'
    · rcases hdl with ⟨s', k, rfl⟩ | ⟨s', k, rfl⟩ | ⟨s', k, k', rfl⟩ <;>
        simp [lineNumbersOK]
  exact key c hc l hl

/-- Witness for `c5_line_number_presence` on the deletion line of a
concrete parse. -/
theorem c5_line_number_presence_witness :
    lineNumbersOK { type := .deletion, content := "old",
                    oldLineNumber := some 2, newLineNumber := none } ∧
    ¬((some 2 : Option Nat) = none ∧ (none : Option Nat) = none) :=
  c5_line_number_presence
    "diff --git a/foo.txt b/foo.txt\nindex e69de29..0000000 100644\n--- a/foo.txt\n+++ b/foo.txt\n@@ -1,2 +1,3 @@\n keep\n-old\n+new1\n+new2"
    { path := "foo.txt", oldPath := none, additions := 2, deletions := 1,
      chunks := [{ oldStart := 1, oldLines := 2, newStart := 1, newLines := 3,
                   header := "@@ -1,2 +1,3 @@",
                   lines := [{ type := .context, content := "keep",
                               oldLineNumber := some 1, newLineNumber := some 1 },
                             { type := .deletion, content := "old",
                               oldLineNumber := some 2, newLineNumber := none },
                             { type := .addition, content := "new1",
                               oldLineNumber := none, newLineNumber := some 2 },
                             { type := .addition, content := "new2",
                               oldLineNumber := none, newLineNumber := some 3 }] }] }
    (by decide)
    { oldStart := 1, oldLines := 2, newStart := 1, newLines := 3,
      header := "@@ -1,2 +1,3 @@",
      lines := [{ type := .context, content := "keep",
                  oldLineNumber := some 1, newLineNumber := some 1 },
                { type := .deletion, content := "old",
                  oldLineNumber := some 2, newLineNumber := none },
                { type := .addition, content := "new1",
                  oldLineNumber := none, newLineNumber := some 2 },
                { type := .addition, content := "new2",
                  oldLineNumber := none, newLineNumber := some 3 }] }
    (by decide)
    { type := .deletion, content := "old",
      oldLineNumber := some 2, newLineNumber := none }
    (by decide)

/-- Claim C10: every output hunk's count fields are exactly what the
hunk-header pattern yields on its verbatim stored header (omitted count
defaulting to 1), with no validation against the body: concretely, a
hunk declaring 5 old and 7 new lines whose body has a single context
line is emitted with 5 and 7 unchanged. -/
theorem c10_counts_from_header :
    (∀ (s : String) (f : DiffFile), f ∈ parseDiff s →
      ∀ c ∈ f.chunks, headerDeclared c) ∧
    parseDiff "diff --git a/m b/m\n@@ -1,5 +1,7 @@\n x" =
      [{ path := "m", oldPath := none, additions := 0, deletions := 0,
         chunks := [{ oldStart := 1, oldLines := 5, newStart := 1, newLines := 7,
                      header := "@@ -1,5 +1,7 @@",
                      lines := [{ type := .context, content := "x",
                                  oldLineNumber := some 1,
                                  newLineNumber := some 1 }] }] }] := by
  constructor
  · intro s f hf
    refine parseDiff_chunksOK ?_ ?_ hf
    · intro os oc ns nc line h
      exact h
    · intro c dl hc hdl
      exact hc
  · decide

/-- Witness for the universally quantified part of
`c10_counts_from_header`, at a hunk of a concrete parse. -/
theorem c10_counts_from_header_witness :
    headerDeclared { oldStart := 1, oldLines := 5, newStart := 1, newLines := 7,
                     header := "@@ -1,5 +1,7 @@",
                     lines := [{ type := .context, content := "x",
                                 oldLineNumber := some 1,
                                 newLineNumber := some 1 }] } :=
  c10_counts_from_header.1 "diff --git a/m b/m\n@@ -1,5 +1,7 @@\n x"
    { path := "m", oldPath := none, additions := 0, deletions := 0,
      chunks := [{ oldStart := 1, oldLines := 5, newStart := 1, newLines := 7,
                   header := "@@ -1,5 +1,7 @@",
                   lines := [{ type := .context, content := "x",
                               oldLineNumber := some 1,
                               newLineNumber := some 1 }] }] }
    (by decide)
    { oldStart := 1, oldLines := 5, newStart := 1, newLines := 7,
      header := "@@ -1,5 +1,7 @@",
      lines := [{ type := .context, content := "x",
                  oldLineNumber := some 1, newLineNumber := some 1 }] }
    (by decide)

/-! ## The additions/deletions bookkeeping -/

theorem chunkCountType_append_one (t : DiffLineType) (c : DiffChunk) (dl : DiffLine) :
    chunkCountType t { c with lines := c.lines ++ [dl] } =
      chunkCountType t c + (if dl.type = t then 1 else 0) := by
  unfold chunkCountType
  simp only [List.filter_append, List.length_append]
  congr 1
  by_cases h : dl.type = t <;> simp [List.filter, h]

theorem processLine_countsInv (st : ScanState) (line : List Char)
    (hwf : line.take 2 = ['@', '@'] → (parseChunkHeader line).isSome)
    (h : CountsInv st) : CountsInv (processLine st line) := by
  obtain ⟨hp, ha, hd⟩ := h
  unfold processLine
  split
  · rename_i htake
    split
    · rename_i x os oc ns nc heq
      refine ⟨rfl, ?_, ?_⟩ <;>
        cases hcur : st.current <;>
          simp [flushCurrent, hcur, hp, curCountType, chunkCountType,
            List.sum_append, ha, hd] <;>
          simp [curCountType, hcur] at ha hd <;> omega
    · rename_i heq
      exact absurd (hwf htake) (by simp [heq])
  · split
    · exact ⟨hp, ha, hd⟩
    · rename_i c hcur
      split
      · refine ⟨hp, ?_, ?_⟩ <;>
          simp only [curCountType, hcur] at ha hd <;>
          simp [curCountType, chunkCountType_append_one, ha, hd] <;> omega
      · refine ⟨hp, ?_, ?_⟩ <;>
          simp only [curCountType, hcur] at ha hd <;>
          simp [curCountType, chunkCountType_append_one, ha, hd] <;> omega
      · refine ⟨hp, ?_, ?_⟩ <;>
          simp only [curCountType, hcur] at ha hd <;>
          simp [curCountType, chunkCountType_append_one, ha, hd] <;> omega
      · exact ⟨hp, ha, hd⟩

theorem foldl_countsInv :
    ∀ (ls : List (List Char)),
      (∀ l ∈ ls, l.take 2 = ['@', '@'] → (parseChunkHeader l).isSome) →
      ∀ st : ScanState, CountsInv st → CountsInv (ls.foldl processLine st) := by
  intro ls
  induction ls with
  | nil => intro _ st hst; exact hst
  | cons l ls ih =>
    intro hwf st hst
    exact ih (fun x hx => hwf x (List.mem_cons_of_mem l hx)) _
      (processLine_countsInv st l (hwf l (List.mem_cons_self l ls)) hst)

theorem parseFileBlock_counts {bl : List (List Char)} {f : DiffFile}
    (hwf : WellFormedHeaders bl) (h : parseFileBlock bl = some f) :
    f.additions = countType .addition f ∧ f.deletions = countType .deletion f := by
  unfold parseFileBlock at h
  split at h
  · exact absurd h (by simp)
  · split at h
    · exact absurd h (by simp)
    · split at h
      · exact absurd h (by simp)
      · rename_i first hfirst op np hpaths i hidx
        injection h with h
        have hinv : CountsInv ((bl.drop i).foldl processLine initScan) := by
          refine foldl_countsInv _ ?_ _ ⟨rfl, by simp [initScan, curCountType],
            by simp [initScan, curCountType]⟩
          intro l hl
          exact hwf l (List.drop_subset i bl hl)
        obtain ⟨hp, ha, hd⟩ := hinv
        rw [← h]
        unfold countType
        constructor <;>
          cases hcur : ((bl.drop i).foldl processLine initScan).current <;>
            simp only [curCountType, hcur] at ha hd <;>
            simp [flushCurrent, hcur, hp, curCountType, List.sum_append, ha, hd]

/-- Claim C2 (amended): provided every line beginning with `@@` in every
segment of the input matches the hunk-header pattern, each output
`FileChange`'s `additions` field equals the number of addition-tagged
lines across its hunks and `deletions` the number of deletion-tagged
lines.  (Without that proviso a malformed `@@` line makes the open hunk
appear twice in the hunk list, and the tag counts exceed the fields —
see the counterexample.) -/
theorem c2_additions_match_tags (s : String)
    (hwf : ∀ bl ∈ splitBlocks (splitOnChar '\n' s.data), WellFormedHeaders bl)
    (f : DiffFile) (hf : f ∈ parseDiff s) :
    f.additions = countType .addition f ∧ f.deletions = countType .deletion f := by
  unfold parseDiff parseDiffLines at hf
  rw [List.mem_filterMap] at hf
  obtain ⟨bl, hmem, hbl⟩ := hf
  exact parseFileBlock_counts (hwf bl hmem) hbl

/-- Witness for `c2_additions_match_tags` on a concrete parse. -/
theorem c2_additions_match_tags_witness :
    (2 : Nat) = countType .addition
      { path := "foo.txt", oldPath := none, additions := 2, deletions := 1,
        chunks := [{ oldStart := 1, oldLines := 2, newStart := 1, newLines := 3,
                     header := "@@ -1,2 +1,3 @@",
                     lines := [{ type := .context, content := "keep",
                                 oldLineNumber := some 1, newLineNumber := some 1 },
                               { type := .deletion, content := "old",
                                 oldLineNumber := some 2, newLineNumber := none },
                               { type := .addition, content := "new1",
                                 oldLineNumber := none, newLineNumber := some 2 },
                               { type := .addition, content := "new2",
                                 oldLineNumber := none, newLineNumber := some 3 }] }] } ∧
    (1 : Nat) = countType .deletion
      { path := "foo.txt", oldPath := none, additions := 2, deletions := 1,
        chunks := [{ oldStart := 1, oldLines := 2, newStart := 1, newLines := 3,
                     header := "@@ -1,2 +1,3 @@",
                     lines := [{ type := .context, content := "keep",
                                 oldLineNumber := some 1, newLineNumber := some 1 },
                               { type := .deletion, content := "old",
                                 oldLineNumber := some 2, newLineNumber := none },
                               { type := .addition, content := "new1",
                                 oldLineNumber := none, newLineNumber := some 2 },
                               { type := .addition, content := "new2",
                                 oldLineNumber := none, newLineNumber := some 3 }] }] } :=
  c2_additions_match_tags
    "diff --git a/foo.txt b/foo.txt\nindex e69de29..0000000 100644\n--- a/foo.txt\n+++ b/foo.txt\n@@ -1,2 +1,3 @@\n keep\n-old\n+new1\n+new2"
    (by decide)
    { path := "foo.txt", oldPath := none, additions := 2, deletions := 1,
      chunks := [{ oldStart := 1, oldLines := 2, newStart := 1, newLines := 3,
                   header := "@@ -1,2 +1,3 @@",
                   lines := [{ type := .context, content := "keep",
                               oldLineNumber := some 1, newLineNumber := some 1 },
                             { type := .deletion, content := "old",
                               oldLineNumber := some 2, newLineNumber := none },
                             { type := .addition, content := "new1",
                               oldLineNumber := none, newLineNumber := some 2 },
                             { type := .addition, content := "new2",
                               oldLineNumber := none, newLineNumber := some 3 }] }] }
    (by decide)

/-! ## General list helpers -/

theorem take_append_gen (l1 l2 : List α) :
    ∀ n, (l1 ++ l2).take n = l1.take n ++ l2.take (n - l1.length) := by
  induction l1 with
  | nil => intro n; simp
  | cons a l ih =>
    intro n
    cases n with
    | zero => simp
    | succ m => simp [ih m, List.take_succ_cons]

theorem drop_append_gen (l1 l2 : List α) :
    ∀ n, (l1 ++ l2).drop n = l1.drop n ++ l2.drop (n - l1.length) := by
  induction l1 with
  | nil => intro n; simp
  | cons a l ih =>
    intro n
    cases n with
    | zero => simp
    | succ m => simp [ih m, List.drop_succ_cons]

/-- Claim C3 (amended): a segment whose first line does not match the
`a/<old> b/<new>` shape, or that contains no line beginning with `@@`,
contributes no `FileChange` to the output, and any segment that does
parse reaches the output regardless of the other segments.  (A segment
that has an `@@`-prefixed line but ends up with zero hunks is NOT
dropped — see the counterexample — so a `FileChange` in the output may
have an empty hunk list.) -/
theorem c3_malformed_segment_dropped :
    (∀ (bl : List (List Char)) (first : List Char), bl.head? = some first →
      (matchPaths first = none ∨ findIdxOpt hunkStart bl = none) →
      parseFileBlock bl = none) ∧
    (∀ (ls : List (List Char)) (bl : List (List Char)) (f : DiffFile),
      bl ∈ splitBlocks ls → parseFileBlock bl = some f →
      f ∈ parseDiffLines ls) := by
  constructor
  · intro bl first hhead hbad
    unfold parseFileBlock
    rcases hbad with hb | hb
    · simp [hhead, hb]
    · simp only [hhead, hb]
      split <;> rfl
  · intro ls bl f hmem hparse
    unfold parseDiffLines
    exact List.mem_filterMap.mpr ⟨bl, hmem, hparse⟩

/-- Witness for `c3_malformed_segment_dropped`: a block with an
unmatchable first line parses to nothing, and a good segment's file is in
the output of a parse that also contains a malformed segment. -/
theorem c3_malformed_segment_dropped_witness :
    parseFileBlock ["junk".data] = none ∧
    { path := "p", oldPath := none, additions := 1, deletions := 0,
      chunks := [{ oldStart := 1, oldLines := 1, newStart := 1, newLines := 1,
                   header := "@@ -1 +1 @@",
                   lines := [{ type := .addition, content := "z",
                               oldLineNumber := none, newLineNumber := some 1 }] }] }
      ∈ parseDiffLines
          (splitOnChar '\n' "diff --git nonsense\ndiff --git a/p b/p\n@@ -1 +1 @@\n+z".data) :=
  ⟨c3_malformed_segment_dropped.1 ["junk".data] "junk".data (by decide)
      (Or.inl (by decide)),
   c3_malformed_segment_dropped.2
      (splitOnChar '\n' "diff --git nonsense\ndiff --git a/p b/p\n@@ -1 +1 @@\n+z".data)
      ["a/p b/p".data, "@@ -1 +1 @@".data, "+z".data]
      { path := "p", oldPath := none, additions := 1, deletions := 0,
        chunks := [{ oldStart := 1, oldLines := 1, newStart := 1, newLines := 1,
                     header := "@@ -1 +1 @@",
                     lines := [{ type := .addition, content := "z",
                                 oldLineNumber := none, newLineNumber := some 1 }] }] }
      (by decide) (by decide)⟩

/-! ## The path regex -/

theorem mem_of_getLast?_eq {l : List α} {a : α} (h : l.getLast? = some a) : a ∈ l := by
  induction l with
  | nil => simp at h
  | cons b m ih =>
    cases m with
    | nil => simp at h; simp [h]
    | cons c m' =>
      rw [List.getLast?_cons_cons] at h
      exact List.mem_cons_of_mem b (ih h)

theorem getLast?_isSome_of_ne_nil {l : List α} (h : l ≠ []) : l.getLast?.isSome := by
  induction l with
  | nil => exact absurd rfl h
  | cons b m ih =>
    cases m with
    | nil => simp
    | cons c m' => rw [List.getLast?_cons_cons]; exact ih (by simp)

theorem validSplitAt_iff {rest : List Char} {i : Nat} :
    validSplitAt rest i = true ↔
      (rest.drop i).take 3 = [' ', 'b', '/'] ∧ 1 ≤ i ∧ i + 3 < rest.length ∧
      (∀ c ∈ rest.take i, isLineTerm c = false) ∧
      (∀ c ∈ rest.drop (i + 3), isLineTerm c = false) := by
  simp [validSplitAt, and_assoc, List.all_eq_true]

theorem matchPaths_sound {line o n : List Char}
    (h : matchPaths line = some (o, n)) :
    line = 'a' :: '/' :: (o ++ ' ' :: 'b' :: '/' :: n) ∧ o ≠ [] ∧ n ≠ [] := by
  unfold matchPaths at h
  split at h
  · rename_i rest
    split at h
    · rename_i i hlast
      injection h with h
      obtain ⟨ho, hn⟩ : o = rest.take i ∧ n = rest.drop (i + 3) := by
        constructor <;> [exact (congrArg Prod.fst h).symm;
          exact (congrArg Prod.snd h).symm]
      have hifilter := mem_of_getLast?_eq hlast
      rw [List.mem_filter] at hifilter
      obtain ⟨hirange, hvalid⟩ := hifilter
      rw [validSplitAt_iff] at hvalid
      obtain ⟨h1, h2, h3, _, _⟩ := hvalid
      have hilen : i < rest.length := by omega
      have hdecomp : rest = rest.take i ++ (' ' :: 'b' :: '/' :: rest.drop (i + 3)) := by
        conv_lhs => rw [← List.take_append_drop i rest]
        congr 1
        conv_lhs => rw [← List.take_append_drop 3 (rest.drop i)]
        rw [h1, List.drop_drop]
        simp [Nat.add_comm]
      refine ⟨?_, ?_, ?_⟩
      · rw [ho, hn, ← hdecomp]
      · rw [ho]
        have : (rest.take i).length = i := by
          rw [List.length_take]
          omega
        intro hc
        rw [hc] at this
        simp at this
        omega
      · rw [hn]
        have : (rest.drop (i + 3)).length = rest.length - (i + 3) := List.length_drop _ _
        intro hc
        rw [hc] at this
        simp at this
        omega
    · exact absurd h (by simp)
  · exact absurd h (by simp)

theorem matchPaths_complete (o n : List Char) (ho : o ≠ []) (hn : n ≠ [])
    (hto : ∀ c ∈ o, isLineTerm c = false) (htn : ∀ c ∈ n, isLineTerm c = false) :
    (matchPaths ('a' :: '/' :: (o ++ ' ' :: 'b' :: '/' :: n))).isSome := by
  have hvalid : validSplitAt (o ++ ' ' :: 'b' :: '/' :: n) o.length = true := by
    rw [validSplitAt_iff]
    refine ⟨?_, ?_, ?_, ?_, ?_⟩
    · rw [drop_append_gen]
      simp [List.drop_length]
    · have := List.length_pos.mpr ho
      omega
    · have hn' := List.length_pos.mpr hn
      simp only [List.length_append, List.length_cons]
      omega
    · rw [take_append_gen]
      simp only [List.take_length, Nat.sub_self, List.take_zero, List.append_nil]
      exact hto
    · rw [drop_append_gen, List.drop_eq_nil_of_le (by omega)]
      have h3 : o.length + 3 - o.length = 3 := by omega
      rw [h3]
      simpa using htn
  have hmem : o.length ∈ (List.range (o ++ ' ' :: 'b' :: '/' :: n).length).filter
      (validSplitAt (o ++ ' ' :: 'b' :: '/' :: n)) := by
    rw [List.mem_filter, List.mem_range]
    have hn' := List.length_pos.mpr hn
    refine ⟨?_, hvalid⟩
    simp only [List.length_append, List.length_cons]
    omega
  have hne : lastValidSplit (o ++ ' ' :: 'b' :: '/' :: n) ≠ none := by
    unfold lastValidSplit
    have h1 := getLast?_isSome_of_ne_nil (List.ne_nil_of_mem hmem)
    intro hc
    rw [hc] at h1
    simp at h1
  obtain ⟨i, hls⟩ := Option.ne_none_iff_exists'.mp hne
  simp only [matchPaths, hls]
  simp

/-- Claim C6 (amended): when a segment's first line (after the consumed
`diff --git ` marker) matches the path pattern, the matched line has the
shape `a/<oldPath> b/<newPath>` with both paths non-empty (paths may
contain spaces; the regex being greedy, the split is at the last
admissible occurrence of `" b/"`); the resulting `FileChange` (when the
segment parses) has `path = newPath`, and `oldPath` is present exactly
when the two differ; conversely a line of that shape matches whenever
neither path contains a line terminator (LF, CR, U+2028, U+2029 — the
characters JavaScript `.` never matches).  The unconditional converse
of the original claim is false: see the counterexample. -/
theorem c6_path_extraction (bl : List (List Char)) (first o n : List Char)
    (hhead : bl.head? = some first) (hmp : matchPaths first = some (o, n)) :
    (first = 'a' :: '/' :: (o ++ ' ' :: 'b' :: '/' :: n) ∧ o ≠ [] ∧ n ≠ []) ∧
    (∀ f : DiffFile, parseFileBlock bl = some f →
      f.path = ⟨n⟩ ∧ f.oldPath = if o = n then none else some ⟨o⟩) ∧
    (∀ o' n' : List Char, o' ≠ [] → n' ≠ [] →
      (∀ c ∈ o', isLineTerm c = false) → (∀ c ∈ n', isLineTerm c = false) →
      (matchPaths ('a' :: '/' :: (o' ++ ' ' :: 'b' :: '/' :: n'))).isSome) := by
  refine ⟨matchPaths_sound hmp, ?_, matchPaths_complete⟩
  intro f hf
  unfold parseFileBlock at hf
  simp only [hhead, hmp] at hf
  split at hf
  · exact absurd hf (by simp)
  · injection hf with hf
    rw [← hf]
    constructor
    · rfl
    · by_cases h : o = n <;> simp [h]

/-- Witness for `c6_path_extraction` on a rename segment. -/
theorem c6_path_extraction_witness :
    ("a/old.txt b/new.txt".data =
      'a' :: '/' :: ("old.txt".data ++ ' ' :: 'b' :: '/' :: "new.txt".data) ∧
      "old.txt".data ≠ [] ∧ "new.txt".data ≠ []) ∧
    ((⟨"new.txt".data⟩ : String) = ⟨"new.txt".data⟩ ∧
      (some "old.txt" : Option String) =
        if "old.txt".data = "new.txt".data then none else some ⟨"old.txt".data⟩) := by
  have h := c6_path_extraction
    ["a/old.txt b/new.txt".data, "@@ -1 +1 @@".data, " q".data]
    "a/old.txt b/new.txt".data "old.txt".data "new.txt".data
    (by decide) (by decide)
  refine ⟨h.1, ?_⟩
  have h2 := h.2.1
    { path := "new.txt", oldPath := some "old.txt", additions := 0, deletions := 0,
      chunks := [{ oldStart := 1, oldLines := 1, newStart := 1, newLines := 1,
                   header := "@@ -1 +1 @@",
                   lines := [{ type := .context, content := "q",
                               oldLineNumber := some 1, newLineNumber := some 1 }] }] }
    (by decide)
  exact h2

/-- Counterexample to the original Claim C6: the line `a/g b/g<CR>` has
the claimed shape `a/<old> b/<new>` (with `<new> = g<CR>`, both parts
non-empty), yet the program's path regex `^a\/(.+) b\/(.+)$` fails on it
because JavaScript `.` never matches CR, so a segment with this first
line and a well-formed hunk contributes no `FileChange` at all. -/
theorem c6_counterexample :
    "a/g b/g\r".data =
      'a' :: '/' :: ("g".data ++ ' ' :: 'b' :: '/' :: "g\r".data) ∧
    matchPaths "a/g b/g\r".data = none ∧
    parseFileBlock ["a/g b/g\r".data, "@@ -1 +1 @@".data, " q".data] = none := by
  decide

/-! ## Concatenation of independent segments -/

theorem processLine_nil (st : ScanState) : processLine st [] = st := by
  unfold processLine
  rw [if_neg (by simp)]
  cases h : st.current <;> rfl

theorem splitBlocksAux_no_marker :
    ∀ (body acc : List (List Char)),
      (∀ l ∈ body, isMarker l = false) →
      splitBlocksAux body acc = [acc.reverse ++ body] := by
  intro body
  induction body with
  | nil => intro acc _; simp [splitBlocksAux]
  | cons l rest ih =>
    intro acc h
    unfold splitBlocksAux
    simp only [h l (List.mem_cons_self l rest), Bool.false_eq_true, if_false]
    rw [ih (l :: acc) (fun x hx => h x (List.mem_cons_of_mem _ hx))]
    simp

theorem splitBlocksAux_marker :
    ∀ (body : List (List Char)), (∀ l ∈ body, isMarker l = false) →
      ∀ (m : List Char), isMarker m = true →
      ∀ (rest2 acc : List (List Char)),
      splitBlocksAux (body ++ m :: rest2) acc =
        (acc.reverse ++ body ++ [[]]) :: splitBlocksAux rest2 [m.drop 11] := by
  intro body
  induction body with
  | nil =>
    intro _ m hm rest2 acc
    simp only [List.nil_append]
    conv_lhs => rw [splitBlocksAux]
    simp [hm]
  | cons l rest ih =>
    intro h m hm rest2 acc
    have hl : isMarker l = false := h l (List.mem_cons_self l rest)
    simp only [List.cons_append]
    conv_lhs => rw [splitBlocksAux]
    simp only [hl, Bool.false_eq_true, if_false]
    rw [ih (fun x hx => h x (List.mem_cons_of_mem _ hx)) m hm rest2 (l :: acc)]
    simp

theorem splitBlocksAux_flatten :
    ∀ (segs : List (List (List Char))), (∀ S ∈ segs, ValidSegment S) →
      ∀ (first : List Char) (tail : List (List Char)),
        (∀ l ∈ tail, isMarker l = false) →
        splitBlocksAux (tail ++ segs.flatten) [first.drop 11] =
          segBlocks ((first :: tail) :: segs) := by
  intro segs
  induction segs with
  | nil =>
    intro _ first tail htail
    simp only [List.flatten_nil, List.append_nil]
    rw [splitBlocksAux_no_marker tail [first.drop 11] htail]
    simp [segBlocks, stripSeg]
  | cons S rest ih =>
    intro hv first tail htail
    obtain ⟨first', tail', rfl⟩ : ∃ f t, S = f :: t := by
      cases S with
      | nil =>
        have := hv [] (List.mem_cons_self _ _)
        simp [ValidSegment] at this
      | cons f t => exact ⟨f, t, rfl⟩
    obtain ⟨h1, h2, h3, h4⟩ := hv (first' :: tail') (List.mem_cons_self _ _)
    have : tail ++ ((first' :: tail') :: rest).flatten =
        tail ++ first' :: (tail' ++ rest.flatten) := by simp
    rw [this, splitBlocksAux_marker tail htail first' h1 (tail' ++ rest.flatten)]
    rw [ih (fun x hx => hv x (List.mem_cons_of_mem _ hx)) first' tail' h2]
    simp [segBlocks, stripSeg]

theorem stripSeg_ne_single_empty {S : List (List Char)} (hv : ValidSegment S) :
    stripSeg S ≠ [[]] := by
  cases S with
  | nil => simp [ValidSegment] at hv
  | cons first tail =>
    obtain ⟨h1, h2, h3, h4⟩ := hv
    intro hc
    simp only [stripSeg, List.cons.injEq] at hc
    obtain ⟨hc1, hc2⟩ := hc
    rw [hc1] at h3
    have : matchPaths ([] : List Char) = none := rfl
    rw [this] at h3
    simp at h3

theorem segBlocks_ne_single_empty :
    ∀ (segs : List (List (List Char))), (∀ S ∈ segs, ValidSegment S) →
      ∀ b ∈ segBlocks segs, b ≠ [[]] := by
  intro segs
  induction segs with
  | nil => intro _ b hb; simp [segBlocks] at hb
  | cons S rest ih =>
    intro hv b hb
    cases rest with
    | nil =>
      simp only [segBlocks, List.mem_singleton] at hb
      rw [hb]
      exact stripSeg_ne_single_empty (hv S (List.mem_cons_self _ _))
    | cons S' rest' =>
      simp only [segBlocks, List.mem_cons] at hb
      rcases hb with rfl | hb
      · have hS := hv S (List.mem_cons_self _ _)
        cases S with
        | nil => simp [ValidSegment] at hS
        | cons f t =>
          intro hc
          have : (stripSeg (f :: t) ++ [[]]).length = 1 := by rw [hc]; rfl
          simp [stripSeg] at this
      · exact ih (fun x hx => hv x (List.mem_cons_of_mem _ hx)) b hb

theorem splitBlocks_flatten (segs : List (List (List Char)))
    (hv : ∀ S ∈ segs, ValidSegment S) (hns : segs ≠ []) :
    splitBlocks segs.flatten = segBlocks segs := by
  cases segs with
  | nil => exact absurd rfl hns
  | cons S rest =>
    obtain ⟨first, tail, rfl⟩ : ∃ f t, S = f :: t := by
      cases S with
      | nil =>
        have := hv [] (List.mem_cons_self _ _)
        simp [ValidSegment] at this
      | cons f t => exact ⟨f, t, rfl⟩
    obtain ⟨h1, h2, h3, h4⟩ := hv (first :: tail) (List.mem_cons_self _ _)
    unfold splitBlocks
    have hflat : ((first :: tail) :: rest).flatten =
        first :: (tail ++ rest.flatten) := by simp
    rw [hflat]
    unfold splitBlocksAux
    simp only [h1, if_true]
    rw [splitBlocksAux_flatten rest (fun x hx => hv x (List.mem_cons_of_mem _ hx))
      first tail h2]
    have hne := segBlocks_ne_single_empty ((first :: tail) :: rest) hv
    have e1 : (([] : List (List Char)).reverse ++ [[]]) = [[]] := by simp
    rw [e1, List.filter_cons]
    simp only [ne_eq, not_true_eq_false, decide_False, Bool.false_eq_true, if_false]
    exact List.filter_eq_self.mpr (fun b hb => by simpa using hne b hb)

theorem findIdxOpt_lt_length {p : α → Bool} :
    ∀ {l : List α} {i : Nat}, findIdxOpt p l = some i → i < l.length := by
  intro l
  induction l with
  | nil => intro i h; simp [findIdxOpt] at h
  | cons a t ih =>
    intro i h
    unfold findIdxOpt at h
    split at h
    · injection h with h
      simp [← h]
    · cases hf : findIdxOpt p t with
      | none => rw [hf] at h; simp at h
      | some j =>
        rw [hf] at h
        simp at h
        have := ih hf
        simp [List.length_cons]
        omega

theorem findIdxOpt_append_false {p : α → Bool} {x : α} (hx : p x = false) :
    ∀ (l : List α), findIdxOpt p (l ++ [x]) = findIdxOpt p l := by
  intro l
  induction l with
  | nil => simp [findIdxOpt, hx]
  | cons a t ih =>
    simp only [List.cons_append]
    unfold findIdxOpt
    rw [ih]

theorem findIdxOpt_isSome_of_mem {p : α → Bool} :
    ∀ {l : List α} {x : α}, x ∈ l → p x = true → (findIdxOpt p l).isSome := by
  intro l
  induction l with
  | nil => intro x h; simp at h
  | cons a t ih =>
    intro x hx hp
    unfold findIdxOpt
    rcases List.mem_cons.mp hx with rfl | hx'
    · simp [hp]
    · cases ha : p a with
      | true => simp
      | false =>
        have := ih hx' hp
        simp [this]

theorem parseFileBlock_append_empty {bl : List (List Char)} (hne : bl ≠ []) :
    parseFileBlock (bl ++ [[]]) = parseFileBlock bl := by
  obtain ⟨a, t, rfl⟩ := List.exists_cons_of_ne_nil hne
  have h0 : hunkStart [] = false := by decide
  cases hmp : matchPaths a with
  | none => simp [parseFileBlock, hmp]
  | some pq =>
    cases pq with
    | mk o n =>
      have hfeq : findIdxOpt hunkStart (a :: (t ++ [[]])) =
          findIdxOpt hunkStart (a :: t) := findIdxOpt_append_false h0 (a :: t)
      cases hfi : findIdxOpt hunkStart (a :: t) with
      | none => simp [parseFileBlock, hmp, hfeq, hfi]
      | some i =>
        have hlt : i < (a :: t).length := findIdxOpt_lt_length hfi
        have hdrop : (a :: (t ++ [[]])).drop i = (a :: t).drop i ++ [[]] := by
          show ((a :: t) ++ [[]]).drop i = (a :: t).drop i ++ [[]]
          rw [drop_append_gen]
          have h2 : i - (a :: t).length = 0 := by omega
          rw [h2]
          rfl
        simp only [parseFileBlock, List.cons_append, List.head?_cons, hmp, hfeq,
          hfi, hdrop, List.foldl_append, List.foldl_cons, List.foldl_nil,
          processLine_nil]

theorem validSegment_parses {S : List (List Char)} (hv : ValidSegment S) :
    (parseFileBlock (stripSeg S)).isSome := by
  cases S with
  | nil => simp [ValidSegment] at hv
  | cons first tail =>
    obtain ⟨h1, h2, h3, l, hl, hl2⟩ := hv
    obtain ⟨⟨o, n⟩, hmp⟩ := Option.isSome_iff_exists.mp h3
    obtain ⟨x, hx⟩ := Option.isSome_iff_exists.mp hl2
    have htake := parseChunkHeader_take2 hx
    have hfind : (findIdxOpt hunkStart (stripSeg (first :: tail))).isSome := by
      refine findIdxOpt_isSome_of_mem (List.mem_cons_of_mem _ hl) ?_
      simp [hunkStart, htake]
    obtain ⟨i, hfi⟩ := Option.isSome_iff_exists.mp hfind
    unfold parseFileBlock
    simp only [stripSeg, List.head?_cons]
    simp only [stripSeg] at hfi
    rw [hmp, hfi]
    simp

theorem segBlocks_filterMap :
    ∀ (segs : List (List (List Char))), (∀ S ∈ segs, ValidSegment S) →
      (segBlocks segs).filterMap parseFileBlock =
        segs.filterMap (fun S => parseFileBlock (stripSeg S)) := by
  intro segs
  induction segs with
  | nil => intro _; rfl
  | cons S rest ih =>
    intro hv
    cases rest with
    | nil => rfl
    | cons S' rest' =>
      have hS := hv S (List.mem_cons_self _ _)
      have hne : stripSeg S ≠ [] := by
        cases S with
        | nil => simp [ValidSegment] at hS
        | cons f t => simp [stripSeg]
      simp only [segBlocks, List.filterMap_cons]
      rw [parseFileBlock_append_empty hne,
        ih (fun x hx => hv x (List.mem_cons_of_mem _ hx))]
      cases h : parseFileBlock (stripSeg S) <;> simp [h, List.filterMap_cons]

theorem length_filterMap_of_isSome :
    ∀ (l : List α) (f : α → Option β), (∀ x ∈ l, (f x).isSome) →
      (l.filterMap f).length = l.length := by
  intro l f
  induction l with
  | nil => intro _; rfl
  | cons a t ih =>
    intro h
    obtain ⟨b, hb⟩ := Option.isSome_iff_exists.mp (h a (List.mem_cons_self _ _))
    rw [List.filterMap_cons, hb]
    simp [ih (fun x hx => h x (List.mem_cons_of_mem _ hx))]

theorem splitOnChar_ne_nil (c : Char) : ∀ (s : List Char), splitOnChar c s ≠ [] := by
  intro s
  induction s with
  | nil => simp [splitOnChar]
  | cons a t ih =>
    unfold splitOnChar
    split
    · simp
    · cases h : splitOnChar c t with
      | nil => exact absurd h ih
      | cons x xs => simp

theorem splitOnChar_append_cons (c : Char) :
    ∀ (l1 l2 : List Char), c ∉ l1 →
      splitOnChar c (l1 ++ c :: l2) = l1 :: splitOnChar c l2 := by
  intro l1
  induction l1 with
  | nil =>
    intro l2 _
    simp [splitOnChar]
  | cons a t ih =>
    intro l2 h
    have ha : ¬(a = c) := fun hc => h (hc ▸ List.mem_cons_self a t)
    simp only [List.cons_append]
    conv_lhs => rw [splitOnChar]
    rw [if_neg ha, ih l2 (fun hc => h (List.mem_cons_of_mem a hc))]

theorem mem_splitOnChar_not_mem (c : Char) :
    ∀ (s : List Char), ∀ piece ∈ splitOnChar c s, c ∉ piece := by
  intro s
  induction s with
  | nil => intro piece hp; simp [splitOnChar] at hp; simp [hp]
  | cons a t ih =>
    intro piece hp
    unfold splitOnChar at hp
    split at hp
    · rcases List.mem_cons.mp hp with rfl | hp'
      · simp
      · exact ih piece hp'
    · rename_i ha
      cases hrec : splitOnChar c t with
      | nil => exact absurd hrec (splitOnChar_ne_nil c t)
      | cons x xs =>
        rw [hrec] at hp
        rcases List.mem_cons.mp hp with rfl | hp'
        · intro hc
          rcases List.mem_cons.mp hc with rfl | hc'
          · exact ha rfl
          · exact ih x (hrec ▸ List.mem_cons_self x xs) hc'
        · exact ih piece (hrec ▸ List.mem_cons_of_mem x hp')

theorem splitOnChar_flatten_lines (c : Char) :
    ∀ (ls : List (List Char)), (∀ l ∈ ls, c ∉ l) →
      splitOnChar c ((ls.map (fun l => l ++ [c])).flatten) = ls ++ [[]] := by
  intro ls
  induction ls with
  | nil => intro _; rfl
  | cons l rest ih =>
    intro h
    have : ((l :: rest).map (fun l => l ++ [c])).flatten =
        l ++ c :: (rest.map (fun l => l ++ [c])).flatten := by
      simp
    rw [this, splitOnChar_append_cons c l _ (h l (List.mem_cons_self _ _)),
      ih (fun x hx => h x (List.mem_cons_of_mem _ hx))]
    rfl

theorem digitChar_spec : ∀ d : Nat, d < 10 →
    isDig (digitChar d) = true ∧ (digitChar d).toNat - 48 = d := by
  intro d hd
  interval_cases d <;> exact ⟨rfl, rfl⟩

theorem isDig_ne_newline {ch : Char} (h : isDig ch = true) : ch ≠ '\n' := by
  intro hc
  rw [hc] at h
  exact absurd h (by decide)

theorem natOfDigits_append_one (ds : List Char) (ch : Char) :
    natOfDigits (ds ++ [ch]) = 10 * natOfDigits ds + (ch.toNat - 48) := by
  simp [natOfDigits, List.foldl_append]

theorem digitsOf_spec : ∀ n : Nat,
    digitsOf n ≠ [] ∧ (∀ ch ∈ digitsOf n, isDig ch = true) ∧
      natOfDigits (digitsOf n) = n := by
  intro n
  induction n using Nat.strong_induction_on with
  | _ n ih =>
    by_cases h : n < 10
    · unfold digitsOf
      rw [if_pos h]
      refine ⟨by simp, ?_, ?_⟩
      · intro ch hch
        rw [List.mem_singleton] at hch
        rw [hch]
        exact (digitChar_spec n h).1
      · simp [natOfDigits]
        exact (digitChar_spec n h).2
    · have hdiv : n / 10 < n := Nat.div_lt_self (by omega) (by omega)
      obtain ⟨ih1, ih2, ih3⟩ := ih (n / 10) hdiv
      unfold digitsOf
      rw [if_neg h]
      refine ⟨by simp, ?_, ?_⟩
      · intro ch hch
        rcases List.mem_append.mp hch with hch | hch
        · exact ih2 ch hch
        · rw [List.mem_singleton] at hch
          rw [hch]
          exact (digitChar_spec (n % 10) (Nat.mod_lt n (by omega))).1
      · rw [natOfDigits_append_one, ih3,
          (digitChar_spec (n % 10) (Nat.mod_lt n (by omega))).2]
        omega

theorem digitsOf_ne_nil (n : Nat) : digitsOf n ≠ [] := (digitsOf_spec n).1

theorem digitsOf_isDig (n : Nat) : ∀ ch ∈ digitsOf n, isDig ch = true :=
  (digitsOf_spec n).2.1

theorem natOfDigits_digitsOf (n : Nat) : natOfDigits (digitsOf n) = n :=
  (digitsOf_spec n).2.2

theorem takeWhile_append_all {p : α → Bool} :
    ∀ (l1 l2 : List α), (∀ x ∈ l1, p x = true) →
      (l1 ++ l2).takeWhile p = l1 ++ l2.takeWhile p := by
  intro l1
  induction l1 with
  | nil => intro l2 _; rfl
  | cons a t ih =>
    intro l2 h
    simp only [List.cons_append, List.takeWhile_cons,
      h a (List.mem_cons_self a t), if_true]
    rw [ih l2 (fun x hx => h x (List.mem_cons_of_mem a hx))]

theorem dropWhile_append_all {p : α → Bool} :
    ∀ (l1 l2 : List α), (∀ x ∈ l1, p x = true) →
      (l1 ++ l2).dropWhile p = l2.dropWhile p := by
  intro l1
  induction l1 with
  | nil => intro l2 _; rfl
  | cons a t ih =>
    intro l2 h
    simp only [List.cons_append, List.dropWhile_cons,
      h a (List.mem_cons_self a t), if_true]
    exact ih l2 (fun x hx => h x (List.mem_cons_of_mem a hx))

theorem parseChunkHeader_untracked (N : Nat) :
    parseChunkHeader ("@@ -0,0 +1,".data ++ digitsOf N ++ " @@".data) =
      some (0, 0, 1, N) := by
  have hline : "@@ -0,0 +1,".data ++ digitsOf N ++ " @@".data =
      '@' :: '@' :: ' ' :: '-' ::
        ('0' :: ',' :: '0' :: ' ' :: '+' :: '1' :: ','
          :: (digitsOf N ++ " @@".data)) := rfl
  rw [hline]
  have ht : (digitsOf N ++ " @@".data).takeWhile isDig = digitsOf N := by
    rw [takeWhile_append_all _ _ (digitsOf_isDig N),
      show (" @@".data.takeWhile isDig) = [] from rfl, List.append_nil]
  have hd : (digitsOf N ++ " @@".data).dropWhile isDig =
      ' ' :: '@' :: '@' :: [] := by
    rw [dropWhile_append_all _ _ (digitsOf_isDig N)]
    rfl
  unfold parseChunkHeader
  have hc4 : List.take 4 ('@' :: '@' :: ' ' :: '-' ::
      ('0' :: ',' :: '0' :: ' ' :: '+' :: '1' :: ','
        :: (digitsOf N ++ " @@".data))) = ['@', '@', ' ', '-'] := rfl
  rw [if_pos hc4]
  have q0 : List.drop 4 ('@' :: '@' :: ' ' :: '-' ::
      ('0' :: ',' :: '0' :: ' ' :: '+' :: '1' :: ','
        :: (digitsOf N ++ " @@".data))) =
      '0' :: ',' :: '0' :: ' ' :: '+' :: '1' :: ','
        :: (digitsOf N ++ " @@".data) := rfl
  rw [q0]
  have q1 : List.takeWhile isDig ('0' :: ',' :: '0' :: ' ' :: '+' :: '1' :: ','
      :: (digitsOf N ++ " @@".data)) = ['0'] := rfl
  have q2 : List.dropWhile isDig ('0' :: ',' :: '0' :: ' ' :: '+' :: '1' :: ','
      :: (digitsOf N ++ " @@".data)) =
      ',' :: ('0' :: ' ' :: '+' :: '1' :: ',' :: (digitsOf N ++ " @@".data)) := rfl
  have q3 : List.takeWhile isDig ('0' :: ' ' :: '+' :: '1' :: ','
      :: (digitsOf N ++ " @@".data)) = ['0'] := rfl
  have q4 : List.dropWhile isDig ('0' :: ' ' :: '+' :: '1' :: ','
      :: (digitsOf N ++ " @@".data)) =
      ' ' :: '+' :: ('1' :: ',' :: (digitsOf N ++ " @@".data)) := rfl
  have q5 : List.takeWhile isDig ('1' :: ',' :: (digitsOf N ++ " @@".data)) =
      ['1'] := rfl
  have q6 : List.dropWhile isDig ('1' :: ',' :: (digitsOf N ++ " @@".data)) =
      ',' :: (digitsOf N ++ " @@".data) := rfl
  have hne := digitsOf_ne_nil N
  unfold parseHeaderNums
  simp only [q1, q2, q3, q4, q5, q6, ht, hd]
  have hne0 : (['0'] : List Char) ≠ [] := by simp
  have hne1 : (['1'] : List Char) ≠ [] := by simp
  rw [if_neg hne0]
  rw [if_neg hne1, if_neg hne]
  have v0 : natOfDigits ['0'] = 0 := rfl
  have v1 : natOfDigits ['1'] = 1 := rfl
  rw [v0, v1, natOfDigits_digitsOf]
  simp [hne0]

theorem take2_cons_ne_hdr {c : Char} (hc : ¬(c = '@')) (l : List Char) :
    ¬((c :: l).take 2 = ['@', '@']) := by
  intro h
  rw [show (2 : Nat) = 1 + 1 from rfl, List.take_succ_cons] at h
  simp at h
  exact hc h.1

theorem foldl_plus_lines :
    ∀ (ls : List (List Char)) (c : DiffChunk) (ch : List DiffChunk)
      (pu o k a d : Nat),
      (ls.map (fun l => '+' :: l)).foldl processLine
        { chunks := ch, current := some c, curPushes := pu, oldLineNum := o,
          newLineNum := k, additions := a, deletions := d } =
      { chunks := ch,
        current := some { c with
          lines := c.lines ++ (ls.enumFrom k).map addLineOf },
        curPushes := pu, oldLineNum := o, newLineNum := k + ls.length,
        additions := a + ls.length, deletions := d } := by
  intro ls
  induction ls with
  | nil =>
    intro c ch pu o k a d
    simp [List.enumFrom]
  | cons l rest ih =>
    intro c ch pu o k a d
    simp only [List.map_cons, List.foldl_cons]
    have hstep : processLine
        { chunks := ch, current := some c, curPushes := pu, oldLineNum := o,
          newLineNum := k, additions := a, deletions := d } ('+' :: l) =
        { chunks := ch,
          current := some { c with lines := c.lines ++
            [{ type := .addition, content := ⟨l⟩,
               oldLineNumber := none, newLineNumber := some k }] },
          curPushes := pu, oldLineNum := o, newLineNum := k + 1,
          additions := a + 1, deletions := d } := by
      unfold processLine
      rw [if_neg (take2_cons_ne_hdr (by decide) l)]
      rfl
    rw [hstep, ih]
    simp [List.enumFrom, addLineOf, List.append_assoc, Nat.add_assoc,
      Nat.add_comm, Nat.add_left_comm]

theorem filter_range_unique (p : Nat → Bool) (k : Nat) (hpk : p k = true) :
    ∀ n, k < n → (∀ i, i < n → p i = true → i = k) →
      (List.range n).filter p = [k] := by
  intro n
  induction n with
  | zero => intro h; omega
  | succ m ih =>
    intro hk huniq
    rw [List.range_succ, List.filter_append]
    by_cases hkm : k = m
    · subst hkm
      have h1 : (List.range k).filter p = [] := by
        rw [List.filter_eq_nil]
        intro a ha hpa
        rw [List.mem_range] at ha
        exact absurd (huniq a (by omega) hpa) (by omega)
      rw [h1]
      simp [hpk]
    · have h2 : List.filter p [m] = [] := by
        cases hpm : p m with
        | false => simp [List.filter, hpm]
        | true => exact absurd (huniq m (by omega) hpm).symm hkm
      rw [h2, ih (by omega) (fun i hi hpi => huniq i (by omega) hpi)]
      simp

theorem lastValidSplit_self (P : List Char) (hne : P ≠ [])
    (hinf : ¬ List.IsInfix [' ', 'b', '/'] P)
    (hterm : ∀ c ∈ P, isLineTerm c = false) :
    lastValidSplit (P ++ ' ' :: 'b' :: '/' :: P) = some P.length := by
  have hp := List.length_pos.mpr hne
  have hlen : (P ++ ' ' :: 'b' :: '/' :: P).length = 2 * P.length + 3 := by
    simp only [List.length_append, List.length_cons]
    omega
  have hvalid : validSplitAt (P ++ ' ' :: 'b' :: '/' :: P) P.length = true := by
    rw [validSplitAt_iff]
    refine ⟨?_, by omega, by rw [hlen]; omega, ?_, ?_⟩
    · rw [drop_append_gen, List.drop_length, Nat.sub_self]
      rfl
    · rw [take_append_gen]
      simp only [List.take_length, Nat.sub_self, List.take_zero, List.append_nil]
      exact hterm
    · rw [drop_append_gen, List.drop_eq_nil_of_le (by omega)]
      have h3 : P.length + 3 - P.length = 3 := by omega
      rw [h3]
      simpa using hterm
  have huniq : ∀ i, i < (P ++ ' ' :: 'b' :: '/' :: P).length →
      validSplitAt (P ++ ' ' :: 'b' :: '/' :: P) i = true → i = P.length := by
    intro i hi hv
    rw [validSplitAt_iff] at hv
    obtain ⟨h1, h2, h3, _, _⟩ := hv
    rw [hlen] at h3
    by_contra hne'
    have hcase : i + 3 ≤ P.length ∨ i + 2 = P.length ∨ i + 1 = P.length ∨
        i = P.length + 1 ∨ i = P.length + 2 ∨ P.length + 3 ≤ i := by omega
    rw [drop_append_gen] at h1
    rcases hcase with hc | hc | hc | hc | hc | hc
    · -- " b/" would lie entirely inside the left copy of P
      have hi0 : i - P.length = 0 := by omega
      rw [hi0, take_append_gen] at h1
      have h30 : 3 - (P.drop i).length = 0 := by
        rw [List.length_drop]
        omega
      rw [h30, show ((' ' :: 'b' :: '/' :: P).drop 0).take 0 = [] from rfl,
        List.append_nil] at h1
      refine hinf ⟨P.take i, (P.drop i).drop 3, ?_⟩
      rw [← h1, List.append_assoc, List.take_append_drop, List.take_append_drop]
    · -- i = |P| - 2 : the third matched character would be ' '
      have hi0 : i - P.length = 0 := by omega
      have hl2 : (P.drop i).length = 2 := by rw [List.length_drop]; omega
      obtain ⟨c1, c2, hc12⟩ := List.length_eq_two.mp hl2
      rw [hi0, hc12, take_append_gen] at h1
      simp at h1
    · -- i = |P| - 1 : the second matched character would be ' '
      have hi0 : i - P.length = 0 := by omega
      have hl1 : (P.drop i).length = 1 := by rw [List.length_drop]; omega
      obtain ⟨c1, hc1⟩ := List.length_eq_one.mp hl1
      rw [hi0, hc1, take_append_gen] at h1
      simp at h1
    · -- i = |P| + 1 : the first matched character would be 'b'
      have hpd : P.drop i = [] := List.drop_eq_nil_of_le (by omega)
      rw [hpd, hc, List.nil_append] at h1
      rw [show P.length + 1 - P.length = 1 from by omega] at h1
      simp at h1
    · -- i = |P| + 2 : the first matched character would be '/'
      have hpd : P.drop i = [] := List.drop_eq_nil_of_le (by omega)
      rw [hpd, hc, List.nil_append] at h1
      rw [show P.length + 2 - P.length = 2 from by omega] at h1
      simp at h1
    · -- " b/" would lie entirely inside the right copy of P
      have hpd : P.drop i = [] := List.drop_eq_nil_of_le (by omega)
      rw [hpd, List.nil_append] at h1
      have hj : i - P.length = (i - P.length - 3) + 3 := by omega
      rw [hj] at h1
      have hdd : (' ' :: 'b' :: '/' :: P).drop ((i - P.length - 3) + 3) =
          P.drop (i - P.length - 3) := by
        rw [Nat.add_comm, ← List.drop_drop]
        rfl
      rw [hdd] at h1
      refine hinf ⟨P.take (i - P.length - 3), (P.drop (i - P.length - 3)).drop 3, ?_⟩
      rw [← h1, List.append_assoc, List.take_append_drop, List.take_append_drop]
  unfold lastValidSplit
  rw [filter_range_unique (validSplitAt (P ++ ' ' :: 'b' :: '/' :: P)) P.length
    hvalid (P ++ ' ' :: 'b' :: '/' :: P).length (by rw [hlen]; omega) huniq]
  rfl

theorem findIdxOpt_cons_true {p : α → Bool} {a : α} {l : List α} (h : p a = true) :
    findIdxOpt p (a :: l) = some 0 := by
  simp [findIdxOpt, h]

theorem findIdxOpt_cons_false {p : α → Bool} {a : α} {l : List α} (h : p a = false) :
    findIdxOpt p (a :: l) = (findIdxOpt p l).map (· + 1) := by
  simp [findIdxOpt, h]

theorem isMarker_cons_ne {c : Char} (hc : ¬(c = 'd')) (l : List Char) :
    isMarker (c :: l) = false := by
  unfold isMarker
  rw [show (c :: l).take 11 = c :: l.take 10 from rfl]
  apply decide_eq_false
  intro h
  rw [show ("diff --git ".data) = 'd' :: "iff --git ".data from rfl] at h
  injection h with h1 h2
  exact hc h1

theorem matchPaths_doubled (P : List Char) (hne : P ≠ [])
    (hinf : ¬ List.IsInfix [' ', 'b', '/'] P)
    (hterm : ∀ c ∈ P, isLineTerm c = false) :
    matchPaths ('a' :: '/' :: (P ++ ' ' :: 'b' :: '/' :: P)) = some (P, P) := by
  have hd : (P ++ ' ' :: 'b' :: '/' :: P).drop (P.length + 3) = P := by
    rw [drop_append_gen, List.drop_eq_nil_of_le (by omega),
      show P.length + 3 - P.length = 3 from by omega]
    rfl
  simp only [matchPaths, lastValidSplit_self P hne hinf hterm, List.take_left, hd]

theorem parseFileBlock_untracked_block (P : List Char) (ls : List (List Char))
    (hne : P ≠ []) (hinf : ¬ List.IsInfix [' ', 'b', '/'] P)
    (hterm : ∀ c ∈ P, isLineTerm c = false) :
    parseFileBlock (('a' :: '/' :: (P ++ ' ' :: 'b' :: '/' :: P)) ::
      "new file mode 100644".data :: "index 0000000..0000000".data ::
      "--- /dev/null".data :: ("+++ b/".data ++ P) ::
      ("@@ -0,0 +1,".data ++ digitsOf ls.length ++ " @@".data) ::
      (ls.map (fun l => '+' :: l) ++ [[]])) =
      some { path := ⟨P⟩, oldPath := none, additions := ls.length, deletions := 0,
             chunks := [{ oldStart := 0, oldLines := 0, newStart := 1,
                          newLines := ls.length,
                          header := ⟨"@@ -0,0 +1,".data
                            ++ digitsOf ls.length ++ " @@".data⟩,
                          lines := (ls.enumFrom 1).map addLineOf }] } := by
  have hmp := matchPaths_doubled P hne hinf hterm
  have p0 : hunkStart ('a' :: '/' :: (P ++ ' ' :: 'b' :: '/' :: P)) = false := by
    unfold hunkStart
    rw [show ('a' :: '/' :: (P ++ ' ' :: 'b' :: '/' :: P)).take 2 = ['a', '/']
      from rfl]
    rfl
  have p1 : hunkStart "new file mode 100644".data = false := by decide
  have p2 : hunkStart "index 0000000..0000000".data = false := by decide
  have p3 : hunkStart "--- /dev/null".data = false := by decide
  have p4 : hunkStart ("+++ b/".data ++ P) = false := by
    unfold hunkStart
    rw [show ("+++ b/".data ++ P).take 2 = ['+', '+'] from rfl]
    rfl
  have p5 : hunkStart ("@@ -0,0 +1,".data ++ digitsOf ls.length ++ " @@".data)
      = true := by
    unfold hunkStart
    rw [show ("@@ -0,0 +1,".data ++ digitsOf ls.length ++ " @@".data).take 2
      = ['@', '@'] from rfl]
    rfl
  have hfind : findIdxOpt hunkStart
      (('a' :: '/' :: (P ++ ' ' :: 'b' :: '/' :: P)) ::
        "new file mode 100644".data :: "index 0000000..0000000".data ::
        "--- /dev/null".data :: ("+++ b/".data ++ P) ::
        ("@@ -0,0 +1,".data ++ digitsOf ls.length ++ " @@".data) ::
        (ls.map (fun l => '+' :: l) ++ [[]])) = some 5 := by
    rw [findIdxOpt_cons_false p0, findIdxOpt_cons_false p1,
      findIdxOpt_cons_false p2, findIdxOpt_cons_false p3,
      findIdxOpt_cons_false p4, findIdxOpt_cons_true p5]
    rfl
  have hs1 : processLine initScan
      ("@@ -0,0 +1,".data ++ digitsOf ls.length ++ " @@".data) =
      { chunks := [],
        current := some { oldStart := 0, oldLines := 0, newStart := 1,
                          newLines := ls.length,
                          header := ⟨"@@ -0,0 +1,".data
                            ++ digitsOf ls.length ++ " @@".data⟩,
                          lines := [] },
        curPushes := 0, oldLineNum := 0, newLineNum := 1,
        additions := 0, deletions := 0 } := by
    unfold processLine
    rw [if_pos (show ("@@ -0,0 +1,".data ++ digitsOf ls.length
        ++ " @@".data).take 2 = ['@', '@'] from rfl)]
    rw [parseChunkHeader_untracked]
    rfl
  unfold parseFileBlock
  simp only [List.head?_cons, hmp, hfind]
  rw [show (('a' :: '/' :: (P ++ ' ' :: 'b' :: '/' :: P)) ::
      "new file mode 100644".data :: "index 0000000..0000000".data ::
      "--- /dev/null".data :: ("+++ b/".data ++ P) ::
      ("@@ -0,0 +1,".data ++ digitsOf ls.length ++ " @@".data) ::
      (ls.map (fun l => '+' :: l) ++ [[]])).drop 5 =
      ("@@ -0,0 +1,".data ++ digitsOf ls.length ++ " @@".data) ::
      (ls.map (fun l => '+' :: l) ++ [[]]) from rfl]
  rw [List.foldl_cons, hs1, List.foldl_append, foldl_plus_lines]
  simp only [List.foldl_cons, List.foldl_nil, processLine_nil]
  simp [flushCurrent, List.replicate]

